import Mathlib

namespace PhotoTagger

/-!
Shallow embedding of `src/PhotoTagger.py`: the work-queue / completion-ledger
reconciliation engine (identity normalizer, scan state, work catalog,
completion ledger, tree scanner, reconciliation engine, batch scheduler).

Python dicts are modelled as ordered association lists: assignment to an
existing key replaces the value in place, assignment to a fresh key appends
at the end (CPython dict insertion-order semantics).  Timestamps are `Int`.
Filesystem and network effects are modelled by an explicit environment:
the `os.walk` traversal is a list of events, `os.path.exists` and the
classifier outcome are boolean oracles, and `time.time()` is a fixed value.
-/

/-- Python dict assignment `d[k] = v`: replace in place if the key exists,
otherwise append at the end. -/
def dictInsert {α : Type} (k : String) (v : α) : List (String × α) → List (String × α)
  | [] => [(k, v)]
  | (k2, v2) :: rest => if k2 = k then (k, v) :: rest else (k2, v2) :: dictInsert k v rest

/-- Python `d.get(k)` / membership test `k in d`. -/
def dictLookup {α : Type} (k : String) : List (String × α) → Option α
  | [] => none
  | (k2, v2) :: rest => if k2 = k then some v2 else dictLookup k rest

/-- Python `d.keys()` in insertion order. -/
def dictKeys {α : Type} (d : List (String × α)) : List String := d.map Prod.fst

/-- Python `d.values()` in insertion order. -/
def dictValues {α : Type} (d : List (String × α)) : List α := d.map Prod.snd

/-- The anchor segment `"Photos"` searched for by `normalize_path`. -/
def anchorL : List Char := ['P', 'h', 'o', 't', 'o', 's']

/-- Does `hay` start with `needle`?  (Char-list version of a string
starts-with test, used to locate substring occurrences.) -/
def startsWithL : List Char → List Char → Bool
  | [], _ => true
  | _ :: _, [] => false
  | a :: as, b :: bs => decide (a = b) && startsWithL as bs

/-- Python substring test `needle in hay`, on char lists. -/
def containsL (needle : List Char) : List Char → Bool
  | [] => false
  | c :: rest => startsWithL needle (c :: rest) || containsL needle rest

/-- Python `p[p.find("Photos"):]`: the suffix of `p` beginning at the first
occurrence of the anchor, `none` when the anchor does not occur (in the
source this is the combination of the `"Photos" in full_path` test and
`full_path.find("Photos")` followed by the slice `full_path[idx:]`). -/
def findAnchor : List Char → Option (List Char)
  | [] => none
  | c :: rest => if startsWithL anchorL (c :: rest) then some (c :: rest) else findAnchor rest

/-- Python `s.replace("\\", "/")` (single-character pattern, so a map). -/
def replaceSlash (l : List Char) : List Char := l.map (fun c => if c = '\\' then '/' else c)

/-- Core of `normalize_path` on the character list of the path. -/
def normChars (p : List Char) : List Char :=
  match findAnchor p with
  | some s => replaceSlash s
  | none => replaceSlash p

/-- `normalize_path` from PhotoTagger.py, lines 63-70: cut the path at the
first occurrence of the `Photos` anchor when present, then normalize
backslashes to forward slashes. -/
def normalize_path (s : String) : String := ⟨normChars s.data⟩

/-- Is `c` ASCII whitespace?  (Python `str.strip` default char class,
restricted to the ASCII whitespace actually occurring in path files.) -/
def isSpaceChar (c : Char) : Bool :=
  decide (c = ' ') || decide (c = '\t') || decide (c = '\n') || decide (c = '\r')

/-- Python `line.strip()` on char lists. -/
def stripChars (l : List Char) : List Char :=
  ((l.dropWhile isSpaceChar).reverse.dropWhile isSpaceChar).reverse

/-- Python `line.strip()`. -/
def strip (s : String) : String := ⟨stripChars s.data⟩

/-- One record of the completion ledger (`completed_files.log` entries).
Legacy-migrated records carry no `full_path`, hence the `Option`. -/
structure CompletionRecord where
  normalized_path : String
  full_path : Option String
  completed_time : Int
deriving DecidableEq, Repr

/-- One record of the work catalog (`processing_list.json` entries). -/
structure WorkItem where
  normalized_path : String
  full_path : String
  mod_time : Int
  added_time : Int
deriving DecidableEq, Repr

/-- The per-file info produced by the tree scanner. -/
structure FileInfo where
  full_path : String
  mod_time : Int
deriving DecidableEq, Repr

/-- Persisted form of the completion ledger: absent, structured JSON array,
or the legacy line-oriented form (modelled as its list of raw lines). -/
inductive LedgerFile where
  | absent
  | json (records : List CompletionRecord)
  | legacy (lines : List String)
deriving DecidableEq, Repr

/-- `load_completed_files` (lines 113-125): JSON array keyed by
`normalized_path`; on a parse failure, fall back to the legacy format of one
raw path per line, each stripped line becoming a record with
`completed_time = 0` and identity equal to the stripped line itself.
(The source builds the legacy dict from a Python set; the resulting mapping
is the same as folding over the stripped lines.) -/
def load_completed_files : LedgerFile → List (String × CompletionRecord)
  | LedgerFile.absent => []
  | LedgerFile.json rs => rs.foldl (fun d r => dictInsert r.normalized_path r d) []
  | LedgerFile.legacy lines =>
      ((lines.map strip).filter (fun s => decide (s ≠ ""))).foldl
        (fun d p => dictInsert p ⟨p, none, 0⟩ d) []

/-- `save_completed_file` (lines 128-141): reload the ledger, overwrite the
entry for `normalized_path`, and rewrite the whole table as a JSON array of
the dict values.  Total: re-saving an existing identity raises no error. -/
def save_completed_file (now : Int) (normalized_path full_path : String)
    (lf : LedgerFile) : List CompletionRecord :=
  dictValues (dictInsert normalized_path ⟨normalized_path, some full_path, now⟩
    (load_completed_files lf))

/-- The ledger file as persisted after a `save_completed_file` call. -/
def recordDone (now : Int) (np fp : String) (lf : LedgerFile) : LedgerFile :=
  LedgerFile.json (save_completed_file now np fp lf)

/-- Scan mode (`SCAN_MODE`): the source compares against the string
`"backlog"`; any other value behaves as incremental. -/
inductive ScanMode where
  | backlog
  | incremental
deriving DecidableEq, Repr

/-- One event of the `os.walk` traversal: a directory entry (the walk root
joined with the file name) whose modification time may be unreadable
(`mtime = none` models `os.path.getmtime` raising), or a directory read
error.  `os.walk` runs with its default `onerror=None` (line 172), under
which a `scandir` error is silently ignored: the unreadable directory is
skipped and the walk continues, so a directory read error never raises
into the surrounding `try`. -/
inductive WalkEvent where
  | file (root fname : String) (mtime : Option Int)
  | dirError
deriving DecidableEq, Repr

/-- The fixed allow-list of image extensions (line 160). -/
def supported_extensions : List String := [".jpg", ".jpeg", ".png", ".heic"]

/-- Does `hay` end with `needle`? -/
def isSuffixL (needle hay : List Char) : Bool := startsWithL needle.reverse hay.reverse

/-- ASCII lower-casing of one character (Python `str.lower` restricted to
the ASCII range relevant to extension matching). -/
def lowerChar (c : Char) : Char :=
  if 'A' ≤ c ∧ c ≤ 'Z' then Char.ofNat (c.toNat + 32) else c

/-- Python `file.lower().endswith(supported_extensions)`. -/
def hasSupportedExt (fname : String) : Bool :=
  supported_extensions.any (fun e => isSuffixL e.data (fname.data.map lowerChar))

/-- `os.path.join(root, file)` (posix separator model). -/
def joinPath (root fname : String) : String := root ++ "/" ++ fname

/-- `get_file_modification_time` (lines 144-149): `os.path.getmtime`, with
any exception caught and turned into `0`. -/
def get_file_modification_time : Option Int → Int
  | some t => t
  | none => 0

/-- Body of the `os.walk` loop of `scan_for_new_files` (lines 170-190),
inside the `try`: accumulate accepted files.  A directory read error is
swallowed by `os.walk` itself (`onerror=None`), so the walk simply
continues past it; no modelled event raises, hence the loop never
produces `none` (the `except` handler at lines 194-196 is unreachable by
directory read errors). -/
def scanLoop (mode : ScanMode) (last : Int) :
    List WalkEvent → List (String × FileInfo) → Option (List (String × FileInfo))
  | [], acc => some acc
  | WalkEvent.dirError :: rest, acc => scanLoop mode last rest acc
  | WalkEvent.file root fname mt :: rest, acc =>
      if hasSupportedExt fname then
        if mode = ScanMode.backlog ∨ get_file_modification_time mt > last then
          scanLoop mode last rest
            (dictInsert (normalize_path (joinPath root fname))
              ⟨joinPath root fname, get_file_modification_time mt⟩ acc)
        else scanLoop mode last rest acc
      else scanLoop mode last rest acc

/-- `scan_for_new_files` (lines 152-196): run the walk loop.  The `except`
handler at lines 194-196 would return the empty dict on an exception, but
directory read errors are swallowed inside `os.walk` and never reach it;
the `getD` mirrors that handler for the never-produced `none`. -/
def scan_for_new_files (events : List WalkEvent) (last : Int) (mode : ScanMode) :
    List (String × FileInfo) :=
  (scanLoop mode last events []).getD []

/-- The external world of one run. -/
structure Env where
  clientOk : Bool
  walkEvents : List WalkEvent
  fileExists : String → Bool
  classifyOk : String → Bool
  now : Int

/-- The three persisted tables at the start of a run. -/
structure Stores where
  processing : List WorkItem
  ledger : LedgerFile
  scanState : Option Int
deriving Repr

/-- `load_processing_list` (lines 92-102): JSON array re-keyed by
`normalized_path`. -/
def load_processing_list (store : List WorkItem) : List (String × WorkItem) :=
  store.foldl (fun d w => dictInsert w.normalized_path w d) []

/-- `load_scan_state` (lines 73-82): missing or corrupt state reads as 0. -/
def load_scan_state (store : Option Int) : Int := store.getD 0

/-- Result of `update_processing_list`ʼs side effects. -/
structure UpdResult where
  dict : List (String × WorkItem)
  savedProcessing : List WorkItem
  savedScanState : Option Int
deriving Repr

/-- `update_processing_list` (lines 199-237): scan, merge new identities into
the catalog (keeping existing entries), save the catalog, and in incremental
mode advance the persisted cursor to now. -/
def update_processing_list (env : Env) (mode : ScanMode)
    (procStore : List WorkItem) (scanStore : Option Int) : UpdResult :=
  let processing_dict := load_processing_list procStore
  let last_scan_time : Int :=
    if mode = ScanMode.incremental then load_scan_state scanStore else 0
  let new_files := scan_for_new_files env.walkEvents last_scan_time mode
  let merged := new_files.foldl
    (fun d kv =>
      if (dictLookup kv.1 d).isSome then d
      else dictInsert kv.1 ⟨kv.1, kv.2.full_path, kv.2.mod_time, env.now⟩ d)
    processing_dict
  ⟨merged, dictValues merged,
    if mode = ScanMode.incremental then some env.now else scanStore⟩

/-- The pending-work delta (lines 457-461 and the identical recomputations):
catalog entries whose key is not in the completed dict, as
`(normalized_path, full_path)` pairs in catalog order. -/
def computeDelta (processing : List (String × WorkItem))
    (completed : List (String × CompletionRecord)) : List (String × String) :=
  (processing.filter (fun kv => (dictLookup kv.1 completed).isNone)).map
    (fun kv => (kv.1, kv.2.full_path))

/-- Mutable state of the per-item batch loop (lines 504-533). -/
structure BatchState where
  ledger : LedgerFile
  requests_sent : Nat
  classified : List String
  metaWritten : List String
  pauses : List Nat
deriving Repr

/-- The per-item loop of `batch_process_images` (lines 506-533).  A vanished
file is recorded complete without calling the classifier; a classifier
failure is logged and skipped with no ledger change (`add_tags_to_metadata`
catches all its own errors, so the metadata step never raises); a success
writes metadata, records completion, bumps the counter and pauses whenever
the counter is a multiple of the rate limit.  `classified` records the
full paths the classifier collaborator was invoked on, `metaWritten` those
the metadata writer was invoked on, `pauses` the counter values at which a
pacing pause happened. -/
def processBatch (env : Env) (rate : Nat) :
    List (String × String) → BatchState → BatchState
  | [], st => st
  | (np, fp) :: rest, st =>
      if env.fileExists fp then
        if env.classifyOk fp then
          processBatch env rate rest
            ⟨recordDone env.now np fp st.ledger, st.requests_sent + 1,
              st.classified ++ [fp], st.metaWritten ++ [fp],
              if (st.requests_sent + 1) % rate = 0 then st.pauses ++ [st.requests_sent + 1]
              else st.pauses⟩
        else
          processBatch env rate rest
            ⟨st.ledger, st.requests_sent, st.classified ++ [fp], st.metaWritten, st.pauses⟩
      else
        processBatch env rate rest
          ⟨recordDone env.now np fp st.ledger, st.requests_sent,
            st.classified, st.metaWritten, st.pauses⟩

/-- Outcome of a whole `batch_process_images` run.  Field order: `aborted`
(the run raised out of `initialize_client`), `scans` (number of
`scan_for_new_files` invocations), final persisted `processing` table,
final persisted `ledger`, final persisted `scanState`, the `delta`
(`to_process`) the run settled on, then the batch-loop observables. -/
structure RunResult where
  aborted : Bool
  scans : Nat
  processing : List WorkItem
  ledger : LedgerFile
  scanState : Option Int
  delta : List (String × String)
  classified : List String
  metaWritten : List String
  pauses : List Nat
  requests_sent : Nat
deriving Repr

/-- `batch_process_images` (lines 439-537): initialize the client (abort on
failure), load catalog and ledger, compute the delta; if the catalog is
non-empty but the delta empty, rescan once (Replenishing); if the catalog is
empty, scan (Bootstrap); recompute the delta, stop if it is empty, otherwise
process the first `limit` entries. -/
def batch_process_images (env : Env) (mode : ScanMode) (limit rate : Nat)
    (st : Stores) : RunResult :=
  if env.clientOk then
    let processing_dict := load_processing_list st.processing
    let existing_count := processing_dict.length
    let completed_dict := load_completed_files st.ledger
    let to_process := computeDelta processing_dict completed_dict
    let step :=
      if 0 < existing_count ∧ to_process = [] then
        (update_processing_list env mode st.processing st.scanState, 1)
      else if existing_count = 0 then
        (update_processing_list env mode st.processing st.scanState, 1)
      else
        ((⟨processing_dict, st.processing, st.scanState⟩ : UpdResult), 0)
    let upd := step.1
    let to_process2 := computeDelta upd.dict completed_dict
    if to_process2 = [] then
      ⟨false, step.2, upd.savedProcessing, st.ledger, upd.savedScanState,
        to_process2, [], [], [], 0⟩
    else
      let final := processBatch env rate (to_process2.take limit) ⟨st.ledger, 0, [], [], []⟩
      ⟨false, step.2, upd.savedProcessing, final.ledger, upd.savedScanState,
        to_process2, final.classified, final.metaWritten, final.pauses,
        final.requests_sent⟩
  else
    ⟨true, 0, st.processing, st.ledger, st.scanState, [], [], [], [], 0⟩

/-! Association-list dictionary lemmas. -/

theorem dictLookup_insert_self {α : Type} (k : String) (v : α) (d : List (String × α)) :
    dictLookup k (dictInsert k v d) = some v := by
  induction d with
  | nil => simp [dictInsert, dictLookup]
  | cons q rest ih =>
    obtain ⟨k2, v2⟩ := q
    by_cases h : k2 = k
    · simp [dictInsert, dictLookup, h]
    · simp [dictInsert, dictLookup, h, ih]

theorem dictLookup_insert_ne {α : Type} (k k2 : String) (v : α) (d : List (String × α))
    (h : k2 ≠ k) : dictLookup k (dictInsert k2 v d) = dictLookup k d := by
  have hne : ¬ k = k2 := fun e => h e.symm
  induction d with
  | nil => simp [dictInsert, dictLookup, h]
  | cons q rest ih =>
    obtain ⟨k3, v3⟩ := q
    by_cases h3 : k3 = k2
    · subst h3
      simp [dictInsert, dictLookup, h]
    · by_cases h4 : k3 = k
      · subst h4
        simp [dictInsert, dictLookup, h3, hne]
      · simp [dictInsert, dictLookup, h3, h4, ih]

theorem dictKeys_insert {α : Type} (k : String) (v : α) (d : List (String × α)) :
    dictKeys (dictInsert k v d)
      = if k ∈ dictKeys d then dictKeys d else dictKeys d ++ [k] := by
  induction d with
  | nil => simp [dictInsert, dictKeys]
  | cons q rest ih =>
    obtain ⟨k2, v2⟩ := q
    by_cases h : k2 = k
    · simp [dictInsert, dictKeys, h]
    · have hne : ¬ k = k2 := fun e => h e.symm
      have hstep : dictKeys (dictInsert k v ((k2, v2) :: rest))
          = k2 :: dictKeys (dictInsert k v rest) := by
        simp [dictInsert, h, dictKeys]
      rw [hstep, ih]
      by_cases hm : k ∈ dictKeys rest
      · simp only [dictKeys] at hm
        simp [dictKeys, hm, hne]
      · simp only [dictKeys] at hm
        simp [dictKeys, hm, hne]

theorem dictLookup_eq_none_iff {α : Type} (k : String) (d : List (String × α)) :
    dictLookup k d = none ↔ ¬ k ∈ dictKeys d := by
  induction d with
  | nil => simp [dictLookup, dictKeys]
  | cons q rest ih =>
    obtain ⟨k2, v2⟩ := q
    by_cases h : k2 = k
    · simp [dictLookup, dictKeys, h]
    · have hne : ¬ k = k2 := fun e => h e.symm
      simp [dictLookup, dictKeys, h, hne, ih]

theorem dictInsert_value_mem {α : Type} (k : String) (v : α) (d : List (String × α)) :
    v ∈ dictValues (dictInsert k v d) := by
  induction d with
  | nil => simp [dictInsert, dictValues]
  | cons q rest ih =>
    obtain ⟨k2, v2⟩ := q
    by_cases h : k2 = k
    · simp [dictInsert, dictValues, h]
    · simp only [dictInsert, h, if_false, dictValues, List.map_cons, List.mem_cons]
      exact Or.inr ih

theorem dictInsert_insert_same {α : Type} (k : String) (v1 v2 : α) (d : List (String × α)) :
    dictInsert k v2 (dictInsert k v1 d) = dictInsert k v2 d := by
  induction d with
  | nil => simp [dictInsert]
  | cons q rest ih =>
    obtain ⟨k2, v0⟩ := q
    by_cases h : k2 = k
    · simp [dictInsert, h]
    · simp [dictInsert, h, ih]

theorem dictInsert_of_not_mem {α : Type} (k : String) (v : α) (d : List (String × α))
    (h : ¬ k ∈ dictKeys d) : dictInsert k v d = d ++ [(k, v)] := by
  induction d with
  | nil => rfl
  | cons q rest ih =>
    obtain ⟨k2, v2⟩ := q
    have hne : k2 ≠ k := by
      intro e
      exact h (by simp [dictKeys, e])
    have hrest : ¬ k ∈ dictKeys rest := by
      intro hm
      exact h (by simp [dictKeys] at hm ⊢; exact Or.inr hm)
    simp [dictInsert, hne, ih hrest]

theorem keyInv_insert {α : Type} (f : α → String) (k : String) (v : α)
    (d : List (String × α)) (hv : f v = k) (h : ∀ p ∈ d, f p.2 = p.1) :
    ∀ p ∈ dictInsert k v d, f p.2 = p.1 := by
  induction d with
  | nil =>
    intro p hp
    simp [dictInsert] at hp
    simp [hp, hv]
  | cons q rest ih =>
    obtain ⟨k2, v2⟩ := q
    intro p hp
    by_cases hk : k2 = k
    · simp [dictInsert, hk] at hp
      rcases hp with hp | hp
      · simp [hp, hv]
      · exact h p (by simp [hp])
    · simp [dictInsert, hk] at hp
      rcases hp with hp | hp
      · exact h p (by simp [hp])
      · exact ih (fun p2 hp2 => h p2 (by simp [hp2])) p hp

theorem nodupKeys_insert {α : Type} (k : String) (v : α) (d : List (String × α))
    (h : (dictKeys d).Nodup) : (dictKeys (dictInsert k v d)).Nodup := by
  rw [dictKeys_insert]
  split
  · exact h
  · rename_i hk
    simp [List.nodup_append, h, hk]

theorem foldl_insert_keyInvGen {α β : Type} (f : α → String) (key : β → String)
    (val : β → α) (hval : ∀ b, f (val b) = key b) :
    ∀ (rs : List β) (acc : List (String × α)),
      (∀ p ∈ acc, f p.2 = p.1) →
      ∀ p ∈ rs.foldl (fun d b => dictInsert (key b) (val b) d) acc, f p.2 = p.1 := by
  intro rs
  induction rs with
  | nil =>
    intro acc hacc
    simpa using hacc
  | cons b rs ih =>
    intro acc hacc
    simp only [List.foldl_cons]
    exact ih _ (keyInv_insert f (key b) (val b) acc (hval b) hacc)

theorem foldl_insert_nodupGen {α β : Type} (key : β → String) (val : β → α) :
    ∀ (rs : List β) (acc : List (String × α)), (dictKeys acc).Nodup →
      (dictKeys (rs.foldl (fun d b => dictInsert (key b) (val b) d) acc)).Nodup := by
  intro rs
  induction rs with
  | nil =>
    intro acc hacc
    simpa using hacc
  | cons b rs ih =>
    intro acc hacc
    simp only [List.foldl_cons]
    exact ih _ (nodupKeys_insert (key b) (val b) acc hacc)

theorem loadCompleted_keyInv (lf : LedgerFile) :
    ∀ p ∈ load_completed_files lf, p.2.normalized_path = p.1 := by
  cases lf with
  | absent => simp [load_completed_files]
  | json rs =>
    exact foldl_insert_keyInvGen CompletionRecord.normalized_path
      CompletionRecord.normalized_path (fun r => r) (fun b => rfl) rs []
      (by simp)
  | legacy lines =>
    exact foldl_insert_keyInvGen CompletionRecord.normalized_path
      (fun p => p) (fun p => ⟨p, none, 0⟩) (fun b => rfl) _ [] (by simp)

theorem loadCompleted_nodup (lf : LedgerFile) :
    (dictKeys (load_completed_files lf)).Nodup := by
  cases lf with
  | absent => simp [load_completed_files, dictKeys]
  | json rs =>
    exact foldl_insert_nodupGen CompletionRecord.normalized_path (fun r => r) rs []
      (by simp [dictKeys])
  | legacy lines =>
    exact foldl_insert_nodupGen (fun p => p) (fun p => (⟨p, none, 0⟩ : CompletionRecord)) _ []
      (by simp [dictKeys])

theorem foldl_insert_fresh :
    ∀ (rs : List CompletionRecord) (acc : List (String × CompletionRecord)),
      (∀ r ∈ rs, ¬ r.normalized_path ∈ dictKeys acc) →
      (rs.map CompletionRecord.normalized_path).Nodup →
      rs.foldl (fun d r => dictInsert r.normalized_path r d) acc
        = acc ++ rs.map (fun r => (r.normalized_path, r)) := by
  intro rs
  induction rs with
  | nil =>
    intro acc _ _
    simp
  | cons r rs ih =>
    intro acc hfresh hnd
    simp only [List.foldl_cons]
    rw [dictInsert_of_not_mem _ _ _ (hfresh r (by simp))]
    have hndtail := (List.nodup_cons.mp hnd).2
    have hhead := (List.nodup_cons.mp hnd).1
    rw [ih (acc ++ [(r.normalized_path, r)]) ?fresh hndtail]
    · simp
    case fresh =>
      intro r2 hr2
      have hne : r2.normalized_path ≠ r.normalized_path := by
        intro e
        exact hhead (List.mem_map.mpr ⟨r2, hr2, e⟩)
      have h2 : ¬ r2.normalized_path ∈ dictKeys acc := hfresh r2 (by simp [hr2])
      simp [dictKeys, List.map_append] at h2 ⊢
      exact ⟨h2, hne⟩

theorem dictValues_map_key (d : List (String × CompletionRecord))
    (hinv : ∀ p ∈ d, p.2.normalized_path = p.1) :
    (dictValues d).map CompletionRecord.normalized_path = dictKeys d := by
  unfold dictValues dictKeys
  rw [List.map_map]
  exact List.map_congr_left (fun p hp => hinv p hp)

theorem load_json_roundtrip (d : List (String × CompletionRecord))
    (hinv : ∀ p ∈ d, p.2.normalized_path = p.1)
    (hnd : (dictKeys d).Nodup) :
    load_completed_files (LedgerFile.json (dictValues d)) = d := by
  show (dictValues d).foldl (fun d2 r => dictInsert r.normalized_path r d2) [] = d
  rw [foldl_insert_fresh (dictValues d) [] (by simp [dictKeys])
    (by rw [dictValues_map_key d hinv]; exact hnd)]
  simp only [List.nil_append]
  unfold dictValues
  rw [List.map_map]
  have h1 : ∀ p ∈ d, ((fun r => (r.normalized_path, r)) ∘ Prod.snd) p = id p := by
    intro p hp
    simp [hinv p hp]
  rw [List.map_congr_left h1, List.map_id]

theorem count_one_of_nodup_mem {l : List String} {a : String}
    (hd : l.Nodup) (h : a ∈ l) : l.count a = 1 := by
  induction l with
  | nil => simp at h
  | cons b l ih =>
    rcases List.mem_cons.mp h with rfl | hmem
    · have h0 : l.count a = 0 := List.count_eq_zero.mpr (List.nodup_cons.mp hd).1
      simp [List.count_cons, h0]
    · have hne : a ≠ b := by
        rintro rfl
        exact (List.nodup_cons.mp hd).1 hmem
      simp [List.count_cons, ih (List.nodup_cons.mp hd).2 hmem, hne]

/-- Claim C1: the pending-work delta computed by the reconciliation engine
(`to_process`, PhotoTagger.py lines 457-461) has as its keys exactly the
keys of the catalog `C` that are not keys of the ledger `L`, and recomputing
the delta from the same unchanged `C` and `L` yields the same result. -/
theorem delta_correct (C : List (String × WorkItem)) (L : List (String × CompletionRecord)) :
    (∀ k : String, k ∈ (computeDelta C L).map Prod.fst ↔ (k ∈ dictKeys C ∧ ¬ k ∈ dictKeys L))
    ∧ computeDelta C L = computeDelta C L := by
  refine ⟨fun k => ?_, rfl⟩
  unfold computeDelta dictKeys
  rw [List.map_map]
  constructor
  · intro hk
    rcases List.mem_map.mp hk with ⟨kv, hmem, hfk⟩
    rcases List.mem_filter.mp hmem with ⟨hC, hp⟩
    simp only [Function.comp] at hfk
    constructor
    · exact List.mem_map.mpr ⟨kv, hC, hfk⟩
    · rw [← hfk]
      exact (dictLookup_eq_none_iff kv.1 L).mp (Option.isNone_iff_eq_none.mp hp)
  · rintro ⟨hkC, hkL⟩
    rcases List.mem_map.mp hkC with ⟨kv, hmem, hfk⟩
    refine List.mem_map.mpr ⟨kv, List.mem_filter.mpr ⟨hmem, ?_⟩, ?_⟩
    · rw [Option.isNone_iff_eq_none, dictLookup_eq_none_iff, hfk]
      exact hkL
    · simpa [Function.comp] using hfk

/-- Claim C2: `save_completed_file` is idempotent in effect.  Calling it
twice for the same identity leaves the persisted ledger with exactly one
record keyed by that identity, and the second call changes nothing about
the ledgerʼs key list (it is total, so no error is raised). -/
theorem save_completed_file_idem (lf : LedgerFile) (id fp : String) (t1 t2 : Int) :
    ((save_completed_file t2 id fp
        (LedgerFile.json (save_completed_file t1 id fp lf))).map
          CompletionRecord.normalized_path).count id = 1
    ∧ (save_completed_file t2 id fp
        (LedgerFile.json (save_completed_file t1 id fp lf))).map
          CompletionRecord.normalized_path
      = (save_completed_file t1 id fp lf).map CompletionRecord.normalized_path := by
  have hinv0 := loadCompleted_keyInv lf
  have hnd0 := loadCompleted_nodup lf
  have hinv1 : ∀ p ∈ dictInsert id (⟨id, some fp, t1⟩ : CompletionRecord)
      (load_completed_files lf), p.2.normalized_path = p.1 :=
    keyInv_insert CompletionRecord.normalized_path id _ _ rfl hinv0
  have hnd1 : (dictKeys (dictInsert id (⟨id, some fp, t1⟩ : CompletionRecord)
      (load_completed_files lf))).Nodup :=
    nodupKeys_insert id _ _ hnd0
  have hrt : load_completed_files (LedgerFile.json (save_completed_file t1 id fp lf))
      = dictInsert id (⟨id, some fp, t1⟩ : CompletionRecord) (load_completed_files lf) :=
    load_json_roundtrip _ hinv1 hnd1
  have hl2 : save_completed_file t2 id fp
      (LedgerFile.json (save_completed_file t1 id fp lf))
      = dictValues (dictInsert id (⟨id, some fp, t2⟩ : CompletionRecord)
          (load_completed_files lf)) := by
    show dictValues (dictInsert id (⟨id, some fp, t2⟩ : CompletionRecord)
        (load_completed_files (LedgerFile.json (save_completed_file t1 id fp lf))))
      = dictValues (dictInsert id (⟨id, some fp, t2⟩ : CompletionRecord)
          (load_completed_files lf))
    rw [hrt, dictInsert_insert_same]
  have hkeys2 : (save_completed_file t2 id fp
      (LedgerFile.json (save_completed_file t1 id fp lf))).map
        CompletionRecord.normalized_path
      = dictKeys (dictInsert id (⟨id, some fp, t2⟩ : CompletionRecord)
          (load_completed_files lf)) := by
    rw [hl2]
    exact dictValues_map_key _ (keyInv_insert CompletionRecord.normalized_path id _ _ rfl hinv0)
  have hkeys1 : (save_completed_file t1 id fp lf).map CompletionRecord.normalized_path
      = dictKeys (dictInsert id (⟨id, some fp, t1⟩ : CompletionRecord)
          (load_completed_files lf)) :=
    dictValues_map_key _ hinv1
  constructor
  · rw [hkeys2, dictKeys_insert]
    split
    · rename_i hmem
      exact count_one_of_nodup_mem hnd0 hmem
    · rename_i hmem
      rw [List.count_append]
      have h0 : (dictKeys (load_completed_files lf)).count id = 0 :=
        List.count_eq_zero.mpr hmem
      simp [h0]
  · rw [hkeys2, hkeys1, dictKeys_insert, dictKeys_insert]

theorem legacyFold_lookup (ps : List String) :
    ∀ (acc : List (String × CompletionRecord)) (p : String),
      (p ∈ ps ∨ dictLookup p acc = some ⟨p, none, 0⟩) →
      dictLookup p (ps.foldl (fun d q => dictInsert q ⟨q, none, 0⟩ d) acc)
        = some ⟨p, none, 0⟩ := by
  induction ps with
  | nil =>
    intro acc p h
    rcases h with h | h
    · simp at h
    · simpa using h
  | cons q ps ih =>
    intro acc p h
    simp only [List.foldl_cons]
    apply ih
    by_cases hpq : p = q
    · subst hpq
      right
      exact dictLookup_insert_self p _ acc
    · rcases h with h | h
      · rcases List.mem_cons.mp h with h2 | h2
        · exact absurd h2 hpq
        · exact Or.inl h2
      · right
        rw [dictLookup_insert_ne p q _ acc (fun e => hpq e.symm)]
        exact h

/-- Claim C3, amended: loading a non-JSON (legacy) ledger interprets it as
one raw path per line and produces, for every non-blank line, a record with
`completed_time = 0` whose identity is the STRIPPED RAW LINE itself — the
source (lines 121-124) does not apply `normalize_path` to legacy lines. -/
theorem legacy_migration (lines : List String) (l : String)
    (h1 : l ∈ lines) (h2 : strip l ≠ "") :
    dictLookup (strip l) (load_completed_files (LedgerFile.legacy lines))
      = some ⟨strip l, none, 0⟩ := by
  show dictLookup (strip l)
      (((lines.map strip).filter (fun s => decide (s ≠ ""))).foldl
        (fun d p => dictInsert p (⟨p, none, 0⟩ : CompletionRecord) d) [])
    = some (⟨strip l, none, 0⟩ : CompletionRecord)
  apply legacyFold_lookup
  left
  refine List.mem_filter.mpr ⟨List.mem_map.mpr ⟨l, h1, rfl⟩, ?_⟩
  simpa using h2

/-- Claim C3, witness for the amended theorem at a concrete legacy line. -/
theorem legacy_migration_witness :
    dictLookup (strip "  Photos/x.jpg  ")
        (load_completed_files (LedgerFile.legacy ["  Photos/x.jpg  "]))
      = some ⟨strip "  Photos/x.jpg  ", none, 0⟩ :=
  legacy_migration ["  Photos/x.jpg  "] "  Photos/x.jpg  " (by simp) (by decide)

/-- Claim C3, counterexample to the claim as stated: for the legacy line
`Photos\a.jpg` the synthesized identity is the raw line, which differs from
`normalize(line) = Photos/a.jpg`, so the loaded record's identity is NOT
`normalize(line)`. -/
theorem legacy_migration_cex :
    load_completed_files (LedgerFile.legacy ["Photos\\a.jpg"])
        = [("Photos\\a.jpg", ⟨"Photos\\a.jpg", none, 0⟩)]
    ∧ normalize_path "Photos\\a.jpg" = "Photos/a.jpg"
    ∧ ("Photos\\a.jpg" : String) ≠ "Photos/a.jpg" := by
  exact ⟨by decide, by decide, by decide⟩

/-- Claim C10: a file whose modification time cannot be read gets
`mod_time = 0` (`get_file_modification_time` catches the exception); hence
in incremental mode with any cursor `last ≥ 0` the scan-loop step for such
a file adds nothing, while in backlog mode it adds the file with
`mod_time = 0`. -/
theorem unreadable_mtime (root fname : String) (rest : List WalkEvent)
    (acc : List (String × FileInfo)) (last : Int)
    (h1 : hasSupportedExt fname = true) (h2 : 0 ≤ last) :
    get_file_modification_time none = 0
    ∧ scanLoop ScanMode.incremental last (WalkEvent.file root fname none :: rest) acc
        = scanLoop ScanMode.incremental last rest acc
    ∧ ∀ last2 : Int,
        scanLoop ScanMode.backlog last2 (WalkEvent.file root fname none :: rest) acc
          = scanLoop ScanMode.backlog last2 rest
              (dictInsert (normalize_path (joinPath root fname))
                ⟨joinPath root fname, 0⟩ acc) := by
  refine ⟨rfl, ?_, ?_⟩
  · have hlt : ¬ last < get_file_modification_time none := by
      simp only [get_file_modification_time]
      exact not_lt.mpr h2
    simp [scanLoop, h1, hlt]
  · intro last2
    have hyes : (ScanMode.backlog = ScanMode.backlog
        ∨ get_file_modification_time none > last2) := Or.inl rfl
    simp [scanLoop, h1, hyes, get_file_modification_time]

/-- Claim C10, witness at a concrete unreadable-mtime file. -/
theorem unreadable_mtime_witness :
    get_file_modification_time none = 0
    ∧ scanLoop ScanMode.incremental 4 [WalkEvent.file "Photos" "a.jpg" none] []
        = scanLoop ScanMode.incremental 4 [] []
    ∧ ∀ last2 : Int,
        scanLoop ScanMode.backlog last2 [WalkEvent.file "Photos" "a.jpg" none] []
          = scanLoop ScanMode.backlog last2 []
              [(normalize_path (joinPath "Photos" "a.jpg"), ⟨joinPath "Photos" "a.jpg", 0⟩)] :=
  unreadable_mtime "Photos" "a.jpg" [] [] 4 (by decide) (by decide)

/-- Claim C6: a batch item whose file no longer exists at processing time is
recorded complete in the ledger and the loop continues with the next item;
neither the classifier nor the metadata writer is invoked for it (the
`classified` and `metaWritten` logs are passed on unchanged). -/
theorem vanished_file_recorded (env : Env) (rate : Nat) (np fp : String)
    (rest : List (String × String)) (st : BatchState) (h : env.fileExists fp = false) :
    processBatch env rate ((np, fp) :: rest) st
      = processBatch env rate rest
          ⟨recordDone env.now np fp st.ledger, st.requests_sent,
            st.classified, st.metaWritten, st.pauses⟩
    ∧ np ∈ (save_completed_file env.now np fp st.ledger).map
        CompletionRecord.normalized_path := by
  constructor
  · simp [processBatch, h]
  · exact List.mem_map.mpr ⟨⟨np, some fp, env.now⟩,
      dictInsert_value_mem np _ (load_completed_files st.ledger), rfl⟩

/-- Claim C6, witness at a concrete vanished file. -/
theorem vanished_file_recorded_witness :
    processBatch ⟨true, [], fun _ => false, fun _ => true, 7⟩ 3
        [("Photos/a.jpg", "P/a.jpg")] ⟨LedgerFile.json [], 0, [], [], []⟩
      = processBatch ⟨true, [], fun _ => false, fun _ => true, 7⟩ 3 []
          ⟨recordDone 7 "Photos/a.jpg" "P/a.jpg" (LedgerFile.json []), 0, [], [], []⟩
    ∧ "Photos/a.jpg" ∈ (save_completed_file 7 "Photos/a.jpg" "P/a.jpg"
        (LedgerFile.json [])).map CompletionRecord.normalized_path :=
  vanished_file_recorded ⟨true, [], fun _ => false, fun _ => true, 7⟩ 3
    "Photos/a.jpg" "P/a.jpg" [] ⟨LedgerFile.json [], 0, [], [], []⟩ rfl

theorem processBatch_counter (env : Env) (rate : Nat) :
    ∀ (items : List (String × String)) (st : BatchState),
      (processBatch env rate items st).requests_sent
        = st.requests_sent
          + (items.filter (fun i => env.fileExists i.2 && env.classifyOk i.2)).length := by
  intro items
  induction items with
  | nil =>
    intro st
    simp [processBatch]
  | cons i rest ih =>
    intro st
    obtain ⟨np, fp⟩ := i
    by_cases hex : env.fileExists fp
    · by_cases hcl : env.classifyOk fp
      · simp [processBatch, hex, hcl, ih, List.filter_cons]
        omega
      · simp [processBatch, hex, hcl, ih, List.filter_cons]
    · simp [processBatch, hex, ih, List.filter_cons]

theorem processBatch_pauses (env : Env) (rate : Nat) :
    ∀ (items : List (String × String)) (st : BatchState),
      (processBatch env rate items st).pauses
        = st.pauses
          ++ ((List.range (items.filter
                (fun i => env.fileExists i.2 && env.classifyOk i.2)).length).map
              (fun j => st.requests_sent + j + 1)).filter
            (fun n => decide (n % rate = 0)) := by
  intro items
  induction items with
  | nil =>
    intro st
    simp [processBatch]
  | cons i rest ih =>
    intro st
    obtain ⟨np, fp⟩ := i
    by_cases hex : env.fileExists fp
    · by_cases hcl : env.classifyOk fp
      · have hstep : processBatch env rate ((np, fp) :: rest) st
            = processBatch env rate rest
                ⟨recordDone env.now np fp st.ledger, st.requests_sent + 1,
                  st.classified ++ [fp], st.metaWritten ++ [fp],
                  if (st.requests_sent + 1) % rate = 0
                  then st.pauses ++ [st.requests_sent + 1] else st.pauses⟩ := by
          simp [processBatch, hex, hcl]
        have hk : ((np, fp) :: rest).filter
            (fun i => env.fileExists i.2 && env.classifyOk i.2)
            = (np, fp) :: rest.filter (fun i => env.fileExists i.2 && env.classifyOk i.2) := by
          simp [List.filter_cons, hex, hcl]
        rw [hstep, ih, hk]
        simp only [List.length_cons, List.range_succ_eq_map, List.map_cons, List.map_map,
          List.filter_cons]
        have hcomp : (List.range (rest.filter
              (fun i => env.fileExists i.2 && env.classifyOk i.2)).length).map
              ((fun j => st.requests_sent + j + 1) ∘ Nat.succ)
            = (List.range (rest.filter
                (fun i => env.fileExists i.2 && env.classifyOk i.2)).length).map
              (fun j => st.requests_sent + 1 + j + 1) := by
          refine List.map_congr_left (fun a ha => ?_)
          simp only [Function.comp]
          omega
        rw [hcomp]
        by_cases hc : (st.requests_sent + 1) % rate = 0
        · simp [hc]
        · simp [hc]
      · have hstep : processBatch env rate ((np, fp) :: rest) st
            = processBatch env rate rest
                ⟨st.ledger, st.requests_sent, st.classified ++ [fp],
                  st.metaWritten, st.pauses⟩ := by
          simp [processBatch, hex, hcl]
        rw [hstep, ih]
        simp [List.filter_cons, hex, hcl]
    · have hstep : processBatch env rate ((np, fp) :: rest) st
          = processBatch env rate rest
              ⟨recordDone env.now np fp st.ledger, st.requests_sent,
                st.classified, st.metaWritten, st.pauses⟩ := by
        simp [processBatch, hex]
      rw [hstep, ih]
      simp [List.filter_cons, hex]

/-- Claim C7: only successful classifier calls increment the pacing counter
(first conjunct), a pacing pause occurs exactly at the successful calls
whose running count is a positive multiple of the rate limit (second
conjunct), and concretely, with `rateLimit = 3` and a batch of 7 items that
all succeed, exactly the pauses after the 3rd and 6th item occur (third
conjunct). -/
theorem rate_pacing :
    (∀ (env : Env) (rate : Nat) (items : List (String × String)) (st : BatchState),
        (processBatch env rate items st).requests_sent
          = st.requests_sent
            + (items.filter (fun i => env.fileExists i.2 && env.classifyOk i.2)).length)
    ∧ (∀ (env : Env) (rate : Nat) (items : List (String × String)) (st : BatchState),
        (processBatch env rate items st).pauses
          = st.pauses
            ++ ((List.range (items.filter
                  (fun i => env.fileExists i.2 && env.classifyOk i.2)).length).map
                (fun j => st.requests_sent + j + 1)).filter
              (fun n => decide (n % rate = 0)))
    ∧ (∀ (env : Env) (items : List (String × String)) (lf : LedgerFile),
        (∀ i ∈ items, env.fileExists i.2 = true) →
        (∀ i ∈ items, env.classifyOk i.2 = true) →
        items.length = 7 →
        (processBatch env 3 items ⟨lf, 0, [], [], []⟩).pauses = [3, 6]) := by
  refine ⟨fun env rate items st => processBatch_counter env rate items st,
    fun env rate items st => processBatch_pauses env rate items st, ?_⟩
  intro env items lf hex hcl hlen
  rw [processBatch_pauses]
  have hfilter : items.filter (fun i => env.fileExists i.2 && env.classifyOk i.2) = items := by
    apply List.filter_eq_self.mpr
    intro a ha
    simp [hex a ha, hcl a ha]
  rw [hfilter, hlen]
  show ([] : List Nat)
      ++ ((List.range 7).map (fun j => 0 + j + 1)).filter (fun n => decide (n % 3 = 0))
    = [3, 6]
  decide

/-- Claim C7, witness: a concrete all-succeeding 7-item batch at rate 3
pauses exactly after the 3rd and the 6th success. -/
theorem rate_pacing_witness :
    (processBatch ⟨true, [], fun _ => true, fun _ => true, 0⟩ 3
        [("a", "a"), ("b", "b"), ("c", "c"), ("d", "d"), ("e", "e"), ("f", "f"), ("g", "g")]
        ⟨LedgerFile.json [], 0, [], [], []⟩).pauses = [3, 6] :=
  rate_pacing.2.2 ⟨true, [], fun _ => true, fun _ => true, 0⟩
    [("a", "a"), ("b", "b"), ("c", "c"), ("d", "d"), ("e", "e"), ("f", "f"), ("g", "g")]
    (LedgerFile.json []) (fun _ _ => rfl) (fun _ _ => rfl) rfl

/-- Claim C5, amended: when the configured root does not exist, the run
does NOT abort (the source never checks the root; `os.walk` of a missing
root yields no entries and raises nothing).  With an empty walk and an
empty prior catalog the run completes normally: nothing is classified, no
completion is recorded, the batch counter stays 0 — but the scan still
happens and, in incremental mode, the cursor is still advanced to now. -/
theorem missing_root_run (env : Env) (mode : ScanMode) (limit rate : Nat) (st : Stores)
    (h1 : env.clientOk = true) (h2 : env.walkEvents = []) (h3 : st.processing = []) :
    (batch_process_images env mode limit rate st).aborted = false
    ∧ (batch_process_images env mode limit rate st).classified = []
    ∧ (batch_process_images env mode limit rate st).metaWritten = []
    ∧ (batch_process_images env mode limit rate st).requests_sent = 0
    ∧ (batch_process_images env mode limit rate st).ledger = st.ledger
    ∧ (batch_process_images env mode limit rate st).scanState
        = (if mode = ScanMode.incremental then some env.now else st.scanState)
    ∧ (batch_process_images env mode limit rate st).scans = 1 := by
  refine ⟨?_, ?_, ?_, ?_, ?_, ?_, ?_⟩ <;>
    simp [batch_process_images, h1, h2, h3, update_processing_list, load_processing_list,
      scan_for_new_files, scanLoop, computeDelta, dictValues]

/-- Claim C5, witness for the amended theorem at a concrete run. -/
theorem missing_root_run_witness :
    (batch_process_images ⟨true, [], fun _ => true, fun _ => true, 999⟩
        ScanMode.incremental 500 15 ⟨[], LedgerFile.json [], some 100⟩).aborted = false
    ∧ (batch_process_images ⟨true, [], fun _ => true, fun _ => true, 999⟩
        ScanMode.incremental 500 15 ⟨[], LedgerFile.json [], some 100⟩).classified = []
    ∧ (batch_process_images ⟨true, [], fun _ => true, fun _ => true, 999⟩
        ScanMode.incremental 500 15 ⟨[], LedgerFile.json [], some 100⟩).metaWritten = []
    ∧ (batch_process_images ⟨true, [], fun _ => true, fun _ => true, 999⟩
        ScanMode.incremental 500 15 ⟨[], LedgerFile.json [], some 100⟩).requests_sent = 0
    ∧ (batch_process_images ⟨true, [], fun _ => true, fun _ => true, 999⟩
        ScanMode.incremental 500 15 ⟨[], LedgerFile.json [], some 100⟩).ledger
        = LedgerFile.json []
    ∧ (batch_process_images ⟨true, [], fun _ => true, fun _ => true, 999⟩
        ScanMode.incremental 500 15 ⟨[], LedgerFile.json [], some 100⟩).scanState = some 999
    ∧ (batch_process_images ⟨true, [], fun _ => true, fun _ => true, 999⟩
        ScanMode.incremental 500 15 ⟨[], LedgerFile.json [], some 100⟩).scans = 1 :=
  missing_root_run ⟨true, [], fun _ => true, fun _ => true, 999⟩ ScanMode.incremental 500 15
    ⟨[], LedgerFile.json [], some 100⟩ rfl rfl rfl

/-- Claim C5, counterexample to the claim as stated: a run over a root that
yields no walk entries (the `os.walk` behavior on a nonexistent root) does
not abort, and in incremental mode it even advances the cursor from its
prior value 100 to 999 — contradicting "aborts the run entirely ... and no
cursor is advanced". -/
theorem missing_root_cex :
    (batch_process_images ⟨true, [], fun _ => true, fun _ => true, 999⟩
        ScanMode.incremental 500 15 ⟨[], LedgerFile.json [], some 100⟩).aborted = false
    ∧ (batch_process_images ⟨true, [], fun _ => true, fun _ => true, 999⟩
        ScanMode.incremental 500 15 ⟨[], LedgerFile.json [], some 100⟩).scanState = some 999
    ∧ (⟨[], LedgerFile.json [], some 100⟩ : Stores).scanState = some 100 := by
  exact ⟨by decide, by decide, rfl⟩

theorem scans_le_one (env : Env) (mode : ScanMode) (limit rate : Nat) (st : Stores) :
    (batch_process_images env mode limit rate st).scans ≤ 1 := by
  by_cases h1 : env.clientOk
  · by_cases hb1 : 0 < (load_processing_list st.processing).length
        ∧ computeDelta (load_processing_list st.processing)
            (load_completed_files st.ledger) = []
    · by_cases hfin : computeDelta
          (update_processing_list env mode st.processing st.scanState).dict
          (load_completed_files st.ledger) = []
      · simp [batch_process_images, h1, hb1, hfin]
      · simp [batch_process_images, h1, hb1, hfin]
    · by_cases hb2 : (load_processing_list st.processing).length = 0
      · by_cases hfin : computeDelta
            (update_processing_list env mode st.processing st.scanState).dict
            (load_completed_files st.ledger) = []
        · simp [batch_process_images, h1, hb1, hb2, hfin]
        · simp [batch_process_images, h1, hb1, hb2, hfin]
      · by_cases hfin : computeDelta (load_processing_list st.processing)
            (load_completed_files st.ledger) = []
        · exact absurd ⟨Nat.pos_of_ne_zero hb2, hfin⟩ hb1
        · simp [batch_process_images, h1, hb1, hb2, hfin]
  · simp [batch_process_images, h1]

/-- Claim C9: with a non-empty loaded catalog and an empty initial delta the
reconciliation engine performs exactly one rescan (and never more than one
in any run); if the delta recomputed after that single rescan is still
empty, the run ends with nothing classified, nothing written, the ledger
untouched and the success counter at zero. -/
theorem replenish_exactly_once (env : Env) (mode : ScanMode) (limit rate : Nat) (st : Stores)
    (h1 : env.clientOk = true)
    (h2 : load_processing_list st.processing ≠ [])
    (h3 : computeDelta (load_processing_list st.processing)
        (load_completed_files st.ledger) = []) :
    (batch_process_images env mode limit rate st).scans = 1
    ∧ ((batch_process_images env mode limit rate st).delta = [] →
        (batch_process_images env mode limit rate st).classified = []
        ∧ (batch_process_images env mode limit rate st).metaWritten = []
        ∧ (batch_process_images env mode limit rate st).ledger = st.ledger
        ∧ (batch_process_images env mode limit rate st).requests_sent = 0)
    ∧ (∀ (env2 : Env) (mode2 : ScanMode) (l2 r2 : Nat) (st2 : Stores),
        (batch_process_images env2 mode2 l2 r2 st2).scans ≤ 1) := by
  have hpos : 0 < (load_processing_list st.processing).length := List.length_pos.mpr h2
  by_cases hfin : computeDelta
      (update_processing_list env mode st.processing st.scanState).dict
      (load_completed_files st.ledger) = []
  · refine ⟨?_, fun _ => ⟨?_, ?_, ?_, ?_⟩,
      fun env2 mode2 l2 r2 st2 => scans_le_one env2 mode2 l2 r2 st2⟩ <;>
      simp [batch_process_images, h1, hpos, h3, hfin]
  · refine ⟨?_, ?_, fun env2 mode2 l2 r2 st2 => scans_le_one env2 mode2 l2 r2 st2⟩
    · simp [batch_process_images, h1, hpos, h3, hfin]
    · intro hdelta
      exfalso
      apply hfin
      have hd : (batch_process_images env mode limit rate st).delta
          = computeDelta (update_processing_list env mode st.processing st.scanState).dict
              (load_completed_files st.ledger) := by
        simp [batch_process_images, h1, hpos, h3, hfin]
      rw [hd] at hdelta
      exact hdelta

/-- Claim C9, witness: a concrete run with a one-item catalog already fully
completed performs exactly one rescan. -/
theorem replenish_exactly_once_witness :
    (batch_process_images ⟨true, [], fun _ => true, fun _ => true, 999⟩ ScanMode.backlog
        500 15
        ⟨[⟨"Photos/a.jpg", "P/a.jpg", 1, 2⟩],
          LedgerFile.json [⟨"Photos/a.jpg", some "P/a.jpg", 5⟩], some 100⟩).scans = 1 :=
  (replenish_exactly_once ⟨true, [], fun _ => true, fun _ => true, 999⟩ ScanMode.backlog
    500 15
    ⟨[⟨"Photos/a.jpg", "P/a.jpg", 1, 2⟩],
      LedgerFile.json [⟨"Photos/a.jpg", some "P/a.jpg", 5⟩], some 100⟩
    rfl (by decide) (by decide)).1

theorem startsWithL_append_self (n l : List Char) : startsWithL n (n ++ l) = true := by
  induction n with
  | nil => rfl
  | cons a as ih => simp [startsWithL, ih]

theorem startsWithL_take (n : List Char) :
    ∀ h : List Char, startsWithL n h = startsWithL n (h.take n.length) := by
  induction n with
  | nil =>
    intro h
    rfl
  | cons a as ih =>
    intro h
    cases h with
    | nil => rfl
    | cons b bs => simp [startsWithL, List.take_succ_cons, ih bs]

theorem take_append_le {α : Type} :
    ∀ (n : Nat) (l1 l2 : List α), n ≤ l1.length → (l1 ++ l2).take n = l1.take n := by
  intro n
  induction n with
  | zero =>
    intro l1 l2 _
    simp
  | succ n ih =>
    intro l1 l2 h
    cases l1 with
    | nil => simp at h
    | cons a l1 =>
      simp only [List.length_cons] at h
      simp [List.take_succ_cons, ih l1 l2 (Nat.le_of_succ_le_succ h)]

theorem take_take_le {α : Type} :
    ∀ (k m : Nat) (l : List α), k ≤ m → (l.take m).take k = l.take k := by
  intro k
  induction k with
  | zero =>
    intro m l _
    simp
  | succ k ih =>
    intro m l h
    cases m with
    | zero => exact absurd h (by simp)
    | succ m =>
      cases l with
      | nil => simp
      | cons a l => simp [List.take_succ_cons, ih m l (Nat.le_of_succ_le_succ h)]

theorem take_append_split {α : Type} :
    ∀ (l1 : List α) (n : Nat) (l2 : List α),
      (l1 ++ l2).take n = l1.take n ++ l2.take (n - l1.length) := by
  intro l1
  induction l1 with
  | nil =>
    intro n l2
    simp
  | cons a l1 ih =>
    intro n l2
    cases n with
    | zero => simp
    | succ n =>
      simp only [List.cons_append, List.take_succ_cons, ih n l2, List.length_cons,
        Nat.succ_sub_succ]

theorem take_anchor_agree (k : Nat) (r : List Char) (hk : k ≤ 5) :
    (anchorL ++ r).take k = (anchorL.take 5).take k := by
  rw [take_take_le k 5 anchorL hk]
  have h6 : k ≤ anchorL.length := by
    have he : anchorL.length = 6 := rfl
    omega
  exact take_append_le k anchorL r h6

theorem startsWith_anchor_stable (c : Char) (pre r : List Char) :
    startsWithL anchorL (c :: (pre ++ (anchorL ++ r)))
      = startsWithL anchorL (c :: (pre ++ anchorL.take 5)) := by
  rw [startsWithL_take anchorL (c :: (pre ++ (anchorL ++ r))),
    startsWithL_take anchorL (c :: (pre ++ anchorL.take 5))]
  rw [show anchorL.length = 5 + 1 from rfl]
  simp only [List.take_succ_cons]
  congr 2
  rw [take_append_split pre 5 (anchorL ++ r), take_append_split pre 5 (anchorL.take 5)]
  congr 1
  exact take_anchor_agree (5 - pre.length) r (Nat.sub_le 5 pre.length)

theorem containsL_cons (needle : List Char) (c : Char) (rest : List Char) :
    containsL needle (c :: rest)
      = (startsWithL needle (c :: rest) || containsL needle rest) := rfl

theorem findAnchor_cons (c : Char) (rest : List Char) :
    findAnchor (c :: rest)
      = if startsWithL anchorL (c :: rest) then some (c :: rest) else findAnchor rest := rfl

theorem findAnchor_self (r : List Char) :
    findAnchor (anchorL ++ r) = some (anchorL ++ r) := by
  have e : anchorL ++ r = 'P' :: (['h', 'o', 't', 'o', 's'] ++ r) := rfl
  rw [e, findAnchor_cons, ← e, startsWithL_append_self, if_pos rfl]

theorem findAnchor_after_clean (r : List Char) :
    ∀ (pre : List Char), containsL anchorL (pre ++ anchorL.take 5) = false →
      findAnchor (pre ++ (anchorL ++ r)) = some (anchorL ++ r) := by
  intro pre
  induction pre with
  | nil =>
    intro _
    simpa using findAnchor_self r
  | cons c pre ih =>
    intro h
    rw [List.cons_append, containsL_cons] at h
    obtain ⟨hA, hB⟩ : _ ∧ _ := by simpa using h
    rw [List.cons_append, findAnchor_cons, startsWith_anchor_stable c pre r, hA,
      if_neg (by simp)]
    exact ih hB

theorem findAnchor_eq_none :
    ∀ (p : List Char), containsL anchorL p = false → findAnchor p = none := by
  intro p
  induction p with
  | nil =>
    intro _
    rfl
  | cons c rest ih =>
    intro h
    rw [containsL_cons] at h
    obtain ⟨hA, hB⟩ : _ ∧ _ := by simpa using h
    rw [findAnchor_cons, hA, if_neg (by simp)]
    exact ih hB

theorem replaceSlash_append (a b : List Char) :
    replaceSlash (a ++ b) = replaceSlash a ++ replaceSlash b := List.map_append _ a b

theorem replaceSlash_anchor : replaceSlash anchorL = anchorL := rfl

/-- Claim C8: two paths that contain the `Photos` anchor after
anchor-free absolute prefixes and whose suffixes agree up to separator
style normalize to the same identity; and a path with no anchor occurrence
normalizes to itself with backslashes replaced by forward slashes.  The
prefix hypothesis `containsL anchorL (pre ++ anchorL.take 5) = false` says
the anchor does not occur in the prefix, even overlapping its boundary. -/
theorem normalize_path_stable (pre1 pre2 r1 r2 : List Char)
    (h1 : containsL anchorL (pre1 ++ anchorL.take 5) = false)
    (h2 : containsL anchorL (pre2 ++ anchorL.take 5) = false)
    (hr : replaceSlash r1 = replaceSlash r2) :
    normalize_path ⟨pre1 ++ (anchorL ++ r1)⟩ = normalize_path ⟨pre2 ++ (anchorL ++ r2)⟩
    ∧ ∀ p : List Char, containsL anchorL p = false →
        normalize_path ⟨p⟩ = ⟨replaceSlash p⟩ := by
  constructor
  · show (⟨normChars (pre1 ++ (anchorL ++ r1))⟩ : String)
      = ⟨normChars (pre2 ++ (anchorL ++ r2))⟩
    unfold normChars
    rw [findAnchor_after_clean r1 pre1 h1, findAnchor_after_clean r2 pre2 h2]
    show (⟨replaceSlash (anchorL ++ r1)⟩ : String) = ⟨replaceSlash (anchorL ++ r2)⟩
    rw [replaceSlash_append, replaceSlash_append, hr]
  · intro p hp
    show (⟨normChars p⟩ : String) = ⟨replaceSlash p⟩
    unfold normChars
    rw [findAnchor_eq_none p hp]

/-- Claim C8, witness: a Windows drive prefix with backslashes and a UNC
share prefix with a slash-style suffix normalize to the same identity. -/
theorem normalize_path_stable_witness :
    normalize_path ⟨"C:\\Users\\vinit\\".data ++ (anchorL ++ "\\2021\\img 1.JPG".data)⟩
      = normalize_path ⟨"\\\\vinut_syno\\home\\".data ++ (anchorL ++ "/2021/img 1.JPG".data)⟩ :=
  (normalize_path_stable "C:\\Users\\vinit\\".data "\\\\vinut_syno\\home\\".data
    "\\2021\\img 1.JPG".data "/2021/img 1.JPG".data (by decide) (by decide) (by decide)).1

end PhotoTagger
